import Mathlib

/-!
Verification of the response-delivery pipeline of the Discord bot in
`src/main.rs`: the output merger (`merge_output_and_errors`), the truncator
(`trim_text`), and the acknowledgment controller (`acknowledge_success`,
`acknowledge_fail`, `on_error`).

Rust strings are modelled as `List Char` (both Rust `char` and Lean `Char`
are Unicode scalar values); Rust `str::len`, which is the UTF-8 byte length,
is modelled by `utf8Len` below.  Fallible platform calls are modelled by
`Except String Unit` outcome parameters, and each embedded handler returns
the list of platform effects it performed together with its own
`Result`-style outcome, mirroring the `?` operator (propagate) versus the
`if let Err` / `let _ =` patterns (swallow) of the source.
-/

namespace Ferrisbot

/-- Rust `char::is_whitespace`: the Unicode White_Space property,
written out as the explicit list of code points. -/
def rustIsWhitespace (c : Char) : Bool :=
  c = ' ' || ('\u0009' ≤ c && c ≤ '\u000D') || c = '\u0085' || c = '\u00A0' ||
  c = '\u1680' || ('\u2000' ≤ c && c ≤ '\u200A') || c = '\u2028' || c = '\u2029' ||
  c = '\u202F' || c = '\u205F' || c = '\u3000'

/-- Rust `str::trim`: remove leading and trailing whitespace.
`List.rdropWhile p l` is definitionally `(l.reverse.dropWhile p).reverse`. -/
def rustTrim (s : List Char) : List Char :=
  List.rdropWhile rustIsWhitespace (s.dropWhile rustIsWhitespace)

/-- `merge_output_and_errors` from `src/main.rs` (lines 20-27):

    match (output.trim(), errors.trim()) {
        ("", "") => " ".into(),
        (output, "") => output.into(),
        ("", errors) => errors.into(),
        (output, errors) => format!("{errors}\n\n{output}").into(),
    }
-/
def merge_output_and_errors (output errors : List Char) : List Char :=
  match rustTrim output, rustTrim errors with
  | [], [] => [' ']
  | output, [] => output
  | [], errors => errors
  | output, errors => errors ++ '\n' :: '\n' :: output

/-- The head of `l.dropWhile p` does not satisfy `p`, hence dropping again is
the identity. -/
theorem dropWhile_eq_self_of_dropWhile (p : Char → Bool) (l : List Char) :
    (l.dropWhile p).dropWhile p = l.dropWhile p :=
  List.dropWhile_idempotent p l

/-- A prefix of a list whose head does not satisfy `p` is itself untouched by
`dropWhile p`. -/
theorem dropWhile_eq_self_of_leading (p : Char → Bool) {l m : List Char}
    (hpre : m <+: l) (hl : l.dropWhile p = l) : m.dropWhile p = m := by
  rw [List.dropWhile_eq_self_iff] at hl ⊢
  intro hm
  have hlen : 0 < l.length := lt_of_lt_of_le hm hpre.length_le
  have hget : l.get ⟨0, hlen⟩ = m.get ⟨0, hm⟩ := by
    simpa using (hpre.getElem (by simpa using hm)).symm
  exact hget ▸ hl hlen

/-- `rustTrim` is idempotent. -/
theorem rustTrim_idem (s : List Char) : rustTrim (rustTrim s) = rustTrim s := by
  unfold rustTrim
  have h1 : (s.dropWhile rustIsWhitespace).dropWhile rustIsWhitespace
      = s.dropWhile rustIsWhitespace := List.dropWhile_idempotent _ _
  have hpre : List.rdropWhile rustIsWhitespace (s.dropWhile rustIsWhitespace)
      <+: s.dropWhile rustIsWhitespace := List.rdropWhile_prefix _ _
  rw [dropWhile_eq_self_of_leading rustIsWhitespace hpre h1,
    List.rdropWhile_idempotent]

/-- C4: `merge_output_and_errors` returns a single space when both inputs are
empty or whitespace-only after trimming; the (trimmed) errors alone when only
the errors are non-empty; the (trimmed) output alone when only the output is
non-empty; and errors, blank line, output when both are non-empty.  In every
case the result is non-empty. -/
theorem merge_output_and_errors_cases (output errors : List Char) :
    (rustTrim output = [] → rustTrim errors = [] →
      merge_output_and_errors output errors = [' ']) ∧
    (rustTrim output ≠ [] → rustTrim errors = [] →
      merge_output_and_errors output errors = rustTrim output) ∧
    (rustTrim output = [] → rustTrim errors ≠ [] →
      merge_output_and_errors output errors = rustTrim errors) ∧
    (rustTrim output ≠ [] → rustTrim errors ≠ [] →
      merge_output_and_errors output errors =
        rustTrim errors ++ '\n' :: '\n' :: rustTrim output) ∧
    merge_output_and_errors output errors ≠ [] := by
  unfold merge_output_and_errors
  rcases ho : rustTrim output with _ | ⟨c, o⟩ <;>
    rcases he : rustTrim errors with _ | ⟨d, e⟩ <;> simp

/-- Witness for C4 at output `ok`, errors `err`: both non-empty, so the
result is the errors, a blank line, then the output. -/
theorem merge_output_and_errors_cases_witness :
    merge_output_and_errors ("ok".toList) ("err".toList) =
      rustTrim ("err".toList) ++ '\n' :: '\n' :: rustTrim ("ok".toList) ∧
    merge_output_and_errors ("ok".toList) ("err".toList) ≠ [] :=
  ⟨(merge_output_and_errors_cases "ok".toList "err".toList).2.2.2.1
      (by decide) (by decide),
    (merge_output_and_errors_cases "ok".toList "err".toList).2.2.2.2⟩

/-- C10: `merge_output_and_errors` builds its result from the trimmed inputs,
not the originals: trimming the inputs beforehand changes nothing, and
merging a padded `  ok  ` with an empty error stream yields `ok`. -/
theorem merge_output_and_errors_trims (output errors : List Char) :
    merge_output_and_errors output errors =
      merge_output_and_errors (rustTrim output) (rustTrim errors) ∧
    merge_output_and_errors ("  ok  ".toList) [] = "ok".toList := by
  refine ⟨?_, by decide⟩
  unfold merge_output_and_errors
  rw [rustTrim_idem, rustTrim_idem]

/-- Rust `str::len`: the UTF-8 byte length of a string.  `Char.utf8Size` is
the number of bytes (1 to 4) of the UTF-8 encoding of a scalar value. -/
def utf8Len : List Char → Nat
  | [] => 0
  | c :: rest => c.utf8Size + utf8Len rest

/-- Rust `str::is_char_boundary i`: `i` is `0`, or the cumulative UTF-8 size
of a prefix of the character list (an index past the end is not a
boundary). -/
def isCharBoundary : List Char → Nat → Bool
  | _, 0 => true
  | [], _ + 1 => false
  | c :: rest, i + 1 =>
    if i + 1 < c.utf8Size then false
    else isCharBoundary rest (i + 1 - c.utf8Size)

/-- The loop of `trim_text` (lines 221-224 of `src/main.rs`): starting from
`available_space`, decrement until a character boundary is hit.

    let mut cut_off_point = available_space;
    while !text_body.is_char_boundary(cut_off_point) {
        cut_off_point -= 1;
    }
-/
def cut_off_point (s : List Char) : Nat → Nat
  | 0 => 0
  | i + 1 => if isCharBoundary s (i + 1) then i + 1 else cut_off_point s i

/-- Rust byte-slicing `&s[..i]` as a character list: take whole characters as
long as they fit in the first `i` bytes. -/
def byteTake : List Char → Nat → List Char
  | [], _ => []
  | c :: rest, i => if c.utf8Size ≤ i then c :: byteTake rest (i - c.utf8Size) else []

/-- Split a character list on LF, keeping empty segments (`"a\n"` gives
`["a", ""]`).  Always returns at least one segment. -/
def splitOnLF : List Char → List (List Char)
  | [] => [[]]
  | c :: rest =>
    if c = '\n' then [] :: splitOnLF rest
    else
      match splitOnLF rest with
      | [] => [[c]]
      | l :: ls => (c :: l) :: ls

/-- Remove one trailing CR, used for the CRLF handling of Rust
`str::lines`. -/
def stripTrailingCR (l : List Char) : List Char :=
  match l.getLast? with
  | some c => if c = '\r' then l.dropLast else l
  | none => l

/-- Rust `str::lines`: split on LF, strip a CR from the end of every
LF-terminated segment, and drop a final empty segment (so a trailing line
ending produces no extra line). -/
def rustLines (s : List Char) : List (List Char) :=
  let parts := splitOnLF s
  let front := (parts.dropLast).map stripTrailingCR
  match parts.getLast? with
  | some [] => front
  | some last => front ++ [last]
  | none => front

/-- `Vec::join("\n")`: interleave a single LF between the segments. -/
def joinLF : List (List Char) → List Char
  | [] => []
  | [l] => l
  | l :: ls => l ++ '\n' :: joinLF ls

/-- `MAX_OUTPUT_LINES` from `trim_text`. -/
def MAX_OUTPUT_LINES : Nat := 45

/-- First step of `trim_text` (lines 210-228 of `src/main.rs`): the check of
the 2000-byte message limit.  The `truncation_msg_future` argument is the
value the future resolves to; the third component of the result counts how
often the future was awaited, and the `Option` is `some` when
`truncation_msg_maybe` has become `Ok` (the future is awaited here whenever
the branch is taken, because `truncation_msg_maybe` is still `Err`).
`2000 - a - b` on `Nat` is the saturating subtraction of the source. -/
def charLimitStep (text_body text_end truncation_msg_future : List Char) :
    List Char × Option (List Char) × Nat :=
  if utf8Len text_body + utf8Len text_end > 2000 then
    let truncation_msg := truncation_msg_future
    let available_space := 2000 - utf8Len text_end - utf8Len truncation_msg
    let cut := cut_off_point text_body available_space
    (byteTake text_body cut, some truncation_msg, 1)
  else
    (text_body, none, 0)

/-- Second step of `trim_text` (lines 231-244 of `src/main.rs`): the check of
the line count.  The future is awaited only when `truncation_msg_maybe` is
still `Err` (`none` here). -/
def lineLimitStep (text_body : List Char) (truncation_msg_maybe : Option (List Char))
    (truncation_msg_future : List Char) (awaits : Nat) :
    List Char × Option (List Char) × Nat :=
  if (rustLines text_body).length > MAX_OUTPUT_LINES then
    match truncation_msg_maybe with
    | some msg =>
      (joinLF ((rustLines text_body).take MAX_OUTPUT_LINES), some msg, awaits)
    | none =>
      (joinLF ((rustLines text_body).take MAX_OUTPUT_LINES),
        some truncation_msg_future, awaits + 1)
  else
    (text_body, truncation_msg_maybe, awaits)

/-- `trim_text` from `src/main.rs` (lines 199-251): apply the byte-limit step,
then the line-limit step, then assemble `body + text_end + truncation_msg`
when the truncation message was materialized, else `body + text_end`.
Returns the assembled string together with the number of times the
truncation-message future was awaited. -/
def trim_text (text_body text_end truncation_msg_future : List Char) :
    List Char × Nat :=
  let s1 := charLimitStep text_body text_end truncation_msg_future
  let s2 := lineLimitStep s1.1 s1.2.1 truncation_msg_future s1.2.2
  match s2.2.1 with
  | some truncation_msg => (s2.1 ++ text_end ++ truncation_msg, s2.2.2)
  | none => (s2.1 ++ text_end, s2.2.2)

theorem utf8Len_append (l₁ l₂ : List Char) :
    utf8Len (l₁ ++ l₂) = utf8Len l₁ + utf8Len l₂ := by
  induction l₁ with
  | nil => simp [utf8Len]
  | cons c t ih => simp [utf8Len, ih]; omega

theorem utf8Len_replicate (n : Nat) (c : Char) :
    utf8Len (List.replicate n c) = n * c.utf8Size := by
  induction n with
  | zero => simp [utf8Len]
  | succ m ih => rw [List.replicate_succ]; simp [utf8Len, ih]; ring

theorem joinLF_cons_cons (l l₂ : List Char) (ls : List (List Char)) :
    joinLF (l :: l₂ :: ls) = l ++ '\n' :: joinLF (l₂ :: ls) := rfl

theorem utf8Len_joinLF_cons (l : List Char) (ls : List (List Char)) :
    utf8Len (joinLF (l :: ls)) =
      utf8Len l + (ls.map utf8Len).sum + ls.length := by
  induction ls generalizing l with
  | nil => simp [joinLF]
  | cons l₂ rest ih =>
    rw [joinLF_cons_cons, utf8Len_append]
    have hnl : '\n'.utf8Size = 1 := by decide
    have h1 : utf8Len ('\n' :: joinLF (l₂ :: rest)) =
        1 + utf8Len (joinLF (l₂ :: rest)) := by simp [utf8Len, hnl]
    rw [h1, ih l₂]
    simp
    omega

theorem splitOnLF_ne_nil (s : List Char) : splitOnLF s ≠ [] := by
  cases s with
  | nil => simp [splitOnLF]
  | cons c rest =>
    unfold splitOnLF
    by_cases h : c = '\n'
    · simp [h]
    · simp only [h, if_false, reduceIte]
      split <;> simp

theorem splitOnLF_cons_not_LF (c : Char) (rest : List Char) (hc : ¬ (c = '\n')) :
    splitOnLF (c :: rest) =
      (c :: (splitOnLF rest).headI) :: (splitOnLF rest).tail := by
  cases hs : splitOnLF rest with
  | nil => exact absurd hs (splitOnLF_ne_nil rest)
  | cons p ps =>
    simp only [hs, List.headI, List.tail_cons]
    rw [splitOnLF.eq_def]
    simp only [if_neg hc, hs]

theorem splitOnLF_append_not_mem (l s : List Char) (h : '\n' ∉ l) :
    splitOnLF (l ++ s) = (l ++ (splitOnLF s).headI) :: (splitOnLF s).tail := by
  induction l with
  | nil =>
    cases hs : splitOnLF s with
    | nil => exact absurd hs (splitOnLF_ne_nil s)
    | cons p ps => simp [hs]
  | cons c t ih =>
    have hc : ¬ (c = '\n') := fun e => h (by simp [e])
    have ht : '\n' ∉ t := fun m => h (List.mem_cons_of_mem c m)
    show splitOnLF (c :: (t ++ s)) = _
    rw [splitOnLF_cons_not_LF c (t ++ s) hc, ih ht]
    simp

theorem splitOnLF_joinLF (ls : List (List Char)) (h0 : ls ≠ [])
    (h : ∀ l ∈ ls, '\n' ∉ l) : splitOnLF (joinLF ls) = ls := by
  induction ls with
  | nil => exact absurd rfl h0
  | cons l rest ih =>
    cases rest with
    | nil =>
      have := splitOnLF_append_not_mem l [] (h l (by simp))
      simpa [splitOnLF, joinLF] using this
    | cons l₂ rest₂ =>
      rw [joinLF_cons_cons,
        splitOnLF_append_not_mem l _ (h l (by simp))]
      have hrec : splitOnLF (joinLF (l₂ :: rest₂)) = l₂ :: rest₂ :=
        ih (by simp) (fun x hx => h x (by simp [hx]))
      have hs : splitOnLF ('\n' :: joinLF (l₂ :: rest₂)) = [] :: l₂ :: rest₂ := by
        unfold splitOnLF
        rw [if_pos rfl, hrec]
      rw [hs]
      simp

theorem stripTrailingCR_eq_self (l : List Char) (h : l.getLast? ≠ some '\r') :
    stripTrailingCR l = l := by
  unfold stripTrailingCR
  cases hl : l.getLast? with
  | none => rfl
  | some c =>
    have hc : ¬ (c = '\r') := fun e => h (by rw [hl, e])
    simp [hc]

theorem rustLines_joinLF (ls : List (List Char)) (h0 : ls ≠ [])
    (hn : ∀ l ∈ ls, '\n' ∉ l) (hr : ∀ l ∈ ls, l.getLast? ≠ some '\r')
    (hlast : ls.getLast? ≠ some []) : rustLines (joinLF ls) = ls := by
  unfold rustLines
  rw [splitOnLF_joinLF ls h0 hn]
  have hfront : ls.dropLast.map stripTrailingCR = ls.dropLast := by
    have hmap : ∀ x ∈ ls.dropLast, stripTrailingCR x = x := fun x hx =>
      stripTrailingCR_eq_self x (hr x (List.dropLast_subset ls hx))
    rw [List.map_congr_left hmap]
    simp
  cases hg : ls.getLast? with
  | none => exact absurd (List.getLast?_eq_none_iff.mp hg) h0
  | some last =>
    cases last with
    | nil => exact absurd hg hlast
    | cons y ys =>
      simp only [hg, hfront]
      show ls.dropLast ++ [y :: ys] = ls
      have hgl : ls.getLast h0 = y :: ys := by
        have h2 := List.getLast?_eq_getLast ls h0
        rw [hg] at h2
        exact (Option.some_injective _ h2).symm
      rw [← hgl, List.dropLast_concat_getLast]

theorem rustLines_single (l : List Char) (h0 : l ≠ []) (hn : '\n' ∉ l)
    (hr : l.getLast? ≠ some '\r') : rustLines l = [l] := by
  have := rustLines_joinLF [l] (by simp) (by simpa) (by simpa) (by simpa)
  simpa [joinLF] using this

theorem dropLast_replicate (n : Nat) (a : List Char) :
    (List.replicate (n + 1) a).dropLast = List.replicate n a := by
  rw [List.replicate_succ', List.dropLast_concat]

theorem splitOnLF_replicate_LF (n : Nat) :
    splitOnLF (List.replicate n '\n') = List.replicate (n + 1) ([] : List Char) := by
  induction n with
  | zero => rfl
  | succ m ih =>
    rw [List.replicate_succ]
    unfold splitOnLF
    rw [if_pos rfl, ih, ← List.replicate_succ]

theorem rustLines_replicate_LF (n : Nat) :
    rustLines (List.replicate n '\n') = List.replicate n ([] : List Char) := by
  unfold rustLines
  have hstrip : stripTrailingCR ([] : List Char) = [] := rfl
  simp [splitOnLF_replicate_LF, dropLast_replicate, List.getLast?_replicate,
    List.map_replicate, hstrip]

theorem joinLF_replicate_nil (m : Nat) :
    joinLF (List.replicate (m + 1) ([] : List Char)) = List.replicate m '\n' := by
  induction m with
  | zero => rfl
  | succ k ih =>
    have h : List.replicate (k + 1 + 1) ([] : List Char)
        = [] :: [] :: List.replicate k [] := by
      rw [List.replicate_succ, List.replicate_succ]
    rw [h, joinLF_cons_cons]
    have h2 : ([] : List Char) :: List.replicate k ([] : List Char)
        = List.replicate (k + 1) [] := (List.replicate_succ _ _).symm
    rw [h2, ih]
    simp [List.replicate_succ]

theorem isCharBoundary_of_ascii (s : List Char) (h : ∀ c ∈ s, c.utf8Size = 1) :
    ∀ i, isCharBoundary s i = decide (i ≤ s.length) := by
  induction s with
  | nil => intro i; cases i <;> simp [isCharBoundary]
  | cons c t ih =>
    intro i
    cases i with
    | zero => simp [isCharBoundary]
    | succ j =>
      have hc : c.utf8Size = 1 := h c (by simp)
      have ht : ∀ x ∈ t, x.utf8Size = 1 := fun x hx => h x (by simp [hx])
      unfold isCharBoundary
      rw [hc, if_neg (by omega), Nat.add_sub_cancel, ih ht j]
      rw [decide_eq_decide]
      simp

theorem byteTake_of_ascii (s : List Char) (h : ∀ c ∈ s, c.utf8Size = 1) :
    ∀ i, byteTake s i = s.take i := by
  induction s with
  | nil => intro i; simp [byteTake]
  | cons c t ih =>
    intro i
    have hc : c.utf8Size = 1 := h c (by simp)
    have ht : ∀ x ∈ t, x.utf8Size = 1 := fun x hx => h x (by simp [hx])
    cases i with
    | zero =>
      unfold byteTake
      rw [hc, if_neg (by omega)]
      rfl
    | succ j =>
      unfold byteTake
      rw [hc, if_pos (by omega), Nat.add_sub_cancel, ih ht j]
      rfl

theorem isCharBoundary_zero (s : List Char) : isCharBoundary s 0 = true := by
  cases s <;> rfl

theorem cut_off_point_le (s : List Char) (i : Nat) : cut_off_point s i ≤ i := by
  induction i with
  | zero => simp [cut_off_point]
  | succ n ih =>
    unfold cut_off_point
    split
    · omega
    · omega

theorem cut_off_point_isBoundary (s : List Char) (i : Nat) :
    isCharBoundary s (cut_off_point s i) = true := by
  induction i with
  | zero => simpa [cut_off_point] using isCharBoundary_zero s
  | succ n ih =>
    unfold cut_off_point
    by_cases h : isCharBoundary s (n + 1) = true
    · rw [if_pos h]; exact h
    · rw [if_neg h]; exact ih

theorem cut_off_point_greatest (s : List Char) (i : Nat) :
    ∀ j, cut_off_point s i < j → j ≤ i → isCharBoundary s j = false := by
  induction i with
  | zero => intro j h1 h2; omega
  | succ n ih =>
    intro j h1 h2
    rw [cut_off_point] at h1
    by_cases h : isCharBoundary s (n + 1) = true
    · rw [if_pos h] at h1; omega
    · rw [if_neg h] at h1
      rcases Nat.lt_or_ge j (n + 1) with hj | hj
      · exact ih j h1 (by omega)
      · have hj1 : j = n + 1 := by omega
        subst hj1
        simpa using h

theorem cut_off_point_eq_of_isBoundary (s : List Char) (i : Nat)
    (h : isCharBoundary s i = true) : cut_off_point s i = i := by
  cases i with
  | zero => rfl
  | succ j =>
    unfold cut_off_point
    rw [if_pos h]

/-- The first step of `trim_text` either leaves the message future unawaited
(`none`, zero awaits) or resolves it to its value (`some`, one await). -/
theorem charLimitStep_msg (b e m : List Char) :
    (charLimitStep b e m).2.1 = none ∧ (charLimitStep b e m).2.2 = 0 ∨
      (charLimitStep b e m).2.1 = some m ∧ (charLimitStep b e m).2.2 = 1 := by
  unfold charLimitStep
  split
  · right; exact ⟨rfl, rfl⟩
  · left; exact ⟨rfl, rfl⟩

/-- Unfolding of `trim_text` in terms of its two steps. -/
theorem trim_text_eq (b e m : List Char) :
    trim_text b e m =
      (match (lineLimitStep (charLimitStep b e m).1 (charLimitStep b e m).2.1 m
          (charLimitStep b e m).2.2).2.1 with
        | some tm =>
          ((lineLimitStep (charLimitStep b e m).1 (charLimitStep b e m).2.1 m
              (charLimitStep b e m).2.2).1 ++ e ++ tm,
            (lineLimitStep (charLimitStep b e m).1 (charLimitStep b e m).2.1 m
              (charLimitStep b e m).2.2).2.2)
        | none =>
          ((lineLimitStep (charLimitStep b e m).1 (charLimitStep b e m).2.1 m
              (charLimitStep b e m).2.2).1 ++ e,
            (lineLimitStep (charLimitStep b e m).1 (charLimitStep b e m).2.1 m
              (charLimitStep b e m).2.2).2.2)) := rfl

/-- The await count of `trim_text` is that of the line-limit step. -/
theorem trim_text_awaits_eq (b e m : List Char) :
    (trim_text b e m).2 =
      (lineLimitStep (charLimitStep b e m).1 (charLimitStep b e m).2.1 m
        (charLimitStep b e m).2.2).2.2 := by
  rw [trim_text_eq]
  split <;> rfl

/-- The line-limit step awaits the future at most once, and only when the
message is not yet materialized. -/
theorem lineLimitStep_awaits (body : List Char) (mb : Option (List Char))
    (m : List Char) (aw : Nat) :
    (lineLimitStep body mb m aw).2.2 ≤
      aw + (match mb with | none => 1 | some _ => 0) := by
  cases mb <;> unfold lineLimitStep <;> split <;> simp

/-- When the line limit triggers and the pending message is `none` or the
future value, the line-limit step cuts to the first 45 lines and holds the
materialized message. -/
theorem lineLimitStep_choose (body : List Char) (mb : Option (List Char))
    (m : List Char) (aw : Nat)
    (h : MAX_OUTPUT_LINES < (rustLines body).length)
    (hmb : mb = none ∨ mb = some m) :
    (lineLimitStep body mb m aw).1
        = joinLF ((rustLines body).take MAX_OUTPUT_LINES) ∧
      (lineLimitStep body mb m aw).2.1 = some m := by
  rcases hmb with rfl | rfl <;> unfold lineLimitStep <;> rw [if_pos h] <;>
    exact ⟨rfl, rfl⟩

/-- C2: when the body plus the closing delimiter fit in 2000 bytes and the
body has at most 45 lines, `trim_text` returns exactly the body followed by
the delimiter and never awaits the truncation-message future. -/
theorem trim_text_fits_unchanged (text_body text_end truncation_msg_future : List Char)
    (h1 : utf8Len text_body + utf8Len text_end ≤ 2000)
    (h2 : (rustLines text_body).length ≤ MAX_OUTPUT_LINES) :
    trim_text text_body text_end truncation_msg_future = (text_body ++ text_end, 0) := by
  have hc : ¬ (utf8Len text_body + utf8Len text_end > 2000) := by omega
  have hl : ¬ ((rustLines text_body).length > MAX_OUTPUT_LINES) := by omega
  simp [trim_text, charLimitStep, lineLimitStep, hc, hl]

/-- Witness for C2: a short two-line body with a three-byte delimiter is
returned unchanged with zero awaits of the future. -/
theorem trim_text_fits_unchanged_witness :
    trim_text ("hi".toList) ("xyz".toList) ("MSG".toList) =
      ("hi".toList ++ "xyz".toList, 0) :=
  trim_text_fits_unchanged _ _ _ (by decide) (by decide)

/-- C3: on every input, `trim_text` awaits the truncation-message future at
most once, even when both the byte limit and the line limit trigger. -/
theorem trim_text_awaits_at_most_once (text_body text_end truncation_msg_future : List Char) :
    (trim_text text_body text_end truncation_msg_future).2 ≤ 1 := by
  rw [trim_text_awaits_eq]
  rcases charLimitStep_msg text_body text_end truncation_msg_future with
    ⟨hm, ha⟩ | ⟨hm, ha⟩ <;> rw [hm, ha]
  · have h := lineLimitStep_awaits
      (charLimitStep text_body text_end truncation_msg_future).1 none
      truncation_msg_future 0
    simpa using h
  · have h := lineLimitStep_awaits
      (charLimitStep text_body text_end truncation_msg_future).1
      (some truncation_msg_future) truncation_msg_future 1
    simpa using h

/-- C6: whenever the (possibly already byte-cut) body coming out of the
first step still has more than 45 lines, the final result is exactly the
first 45 of those lines rejoined by LF, followed by the delimiter, followed
by the materialized truncation message. -/
theorem trim_text_line_limit (text_body text_end truncation_msg_future : List Char)
    (h : MAX_OUTPUT_LINES <
      (rustLines (charLimitStep text_body text_end truncation_msg_future).1).length) :
    (trim_text text_body text_end truncation_msg_future).1 =
      joinLF ((rustLines (charLimitStep text_body text_end
          truncation_msg_future).1).take MAX_OUTPUT_LINES)
        ++ text_end ++ truncation_msg_future := by
  have hmb : (charLimitStep text_body text_end truncation_msg_future).2.1 = none ∨
      (charLimitStep text_body text_end truncation_msg_future).2.1
        = some truncation_msg_future := by
    rcases charLimitStep_msg text_body text_end truncation_msg_future with
      ⟨h1, _⟩ | ⟨h1, _⟩
    · exact Or.inl h1
    · exact Or.inr h1
  obtain ⟨hL1, hL2⟩ := lineLimitStep_choose
    (charLimitStep text_body text_end truncation_msg_future).1
    (charLimitStep text_body text_end truncation_msg_future).2.1
    truncation_msg_future
    (charLimitStep text_body text_end truncation_msg_future).2.2 h hmb
  rw [trim_text_eq]
  simp only [hL2, hL1]

/-- Witness for C6: a 46-line body short enough for the byte limit; the
result keeps the first 45 lines and appends delimiter and message. -/
theorem trim_text_line_limit_witness :
    (trim_text (joinLF (List.replicate 46 ['a'])) [] ("m".toList)).1 =
      joinLF ((rustLines (charLimitStep (joinLF (List.replicate 46 ['a'])) []
          ("m".toList)).1).take MAX_OUTPUT_LINES)
        ++ [] ++ "m".toList :=
  trim_text_line_limit _ _ _ (by decide)

/-- C5 (amended): when the body plus delimiter exceed 2000 bytes AND the
byte-cut prefix has at most 45 lines, `trim_text` materializes the message
exactly once and returns the prefix of the body cut at the largest character
boundary not exceeding `2000 - len(delimiter) - len(message)` (floored at 0),
followed by the delimiter, followed by the message; the cut point is a
character boundary (no multi-byte character is split), is at most the
available space, and is the largest such boundary. -/
theorem trim_text_char_limit (text_body text_end truncation_msg_future : List Char)
    (h : 2000 < utf8Len text_body + utf8Len text_end)
    (hl : (rustLines (byteTake text_body (cut_off_point text_body
        (2000 - utf8Len text_end - utf8Len truncation_msg_future)))).length
      ≤ MAX_OUTPUT_LINES) :
    trim_text text_body text_end truncation_msg_future =
      (byteTake text_body (cut_off_point text_body
          (2000 - utf8Len text_end - utf8Len truncation_msg_future))
        ++ text_end ++ truncation_msg_future, 1) ∧
    isCharBoundary text_body (cut_off_point text_body
      (2000 - utf8Len text_end - utf8Len truncation_msg_future)) = true ∧
    cut_off_point text_body (2000 - utf8Len text_end - utf8Len truncation_msg_future)
      ≤ 2000 - utf8Len text_end - utf8Len truncation_msg_future ∧
    ∀ j, cut_off_point text_body
        (2000 - utf8Len text_end - utf8Len truncation_msg_future) < j →
      j ≤ 2000 - utf8Len text_end - utf8Len truncation_msg_future →
      isCharBoundary text_body j = false := by
  refine ⟨?_, cut_off_point_isBoundary _ _, cut_off_point_le _ _,
    cut_off_point_greatest _ _⟩
  have hnl : ¬ ((rustLines (byteTake text_body (cut_off_point text_body
      (2000 - utf8Len text_end - utf8Len truncation_msg_future)))).length
    > MAX_OUTPUT_LINES) := by omega
  simp [trim_text, charLimitStep, lineLimitStep, h, hnl]

/-- All characters of a replicated ASCII character are one byte. -/
theorem ascii_replicate (n : Nat) (a : Char) (ha : a.utf8Size = 1) :
    ∀ c ∈ List.replicate n a, c.utf8Size = 1 := by
  intro c hc
  rw [List.mem_replicate] at hc
  rw [hc.2, ha]

/-- Witness for C5 (amended): a 2100-byte single-line body of `a` with empty
delimiter and one-byte message is cut to its first 1999 characters. -/
theorem trim_text_char_limit_witness :
    trim_text (List.replicate 2100 'a') [] ['!'] =
      (byteTake (List.replicate 2100 'a') (cut_off_point (List.replicate 2100 'a')
          (2000 - utf8Len [] - utf8Len ['!']))
        ++ [] ++ ['!'], 1) := by
  have ha : ('a').utf8Size = 1 := by decide
  have hascii := ascii_replicate 2100 'a' ha
  have h0 : utf8Len ([] : List Char) = 0 := rfl
  have h : 2000 < utf8Len (List.replicate 2100 'a') + utf8Len [] := by
    rw [utf8Len_replicate, ha, h0]
    omega
  have havail : 2000 - utf8Len ([] : List Char) - utf8Len ['!'] = 1999 := by decide
  have hcut : cut_off_point (List.replicate 2100 'a') 1999 = 1999 := by
    apply cut_off_point_eq_of_isBoundary
    rw [isCharBoundary_of_ascii _ hascii, List.length_replicate]
    decide
  have htake : byteTake (List.replicate 2100 'a') 1999 = List.replicate 1999 'a' := by
    rw [byteTake_of_ascii _ hascii, List.take_replicate,
      (by decide : (1999 : Nat) ⊓ 2100 = 1999)]
  have hlines : rustLines (List.replicate 1999 'a') = [List.replicate 1999 'a'] := by
    apply rustLines_single
    · exact List.length_pos.mp (by rw [List.length_replicate]; omega)
    · intro hmem
      rw [List.mem_replicate] at hmem
      exact absurd hmem.2 (by decide)
    · rw [List.getLast?_replicate, if_neg (by omega)]
      intro hcontra
      exact absurd (Option.some.inj hcontra) (by decide)
  have hl : (rustLines (byteTake (List.replicate 2100 'a')
      (cut_off_point (List.replicate 2100 'a')
        (2000 - utf8Len [] - utf8Len ['!'])))).length ≤ MAX_OUTPUT_LINES := by
    rw [havail, hcut, htake, hlines]
    decide
  exact (trim_text_char_limit (List.replicate 2100 'a') [] ['!'] h hl).1

/-- Body used to refute the unconditional form of C5: 2501 line feeds. -/
def c5_body : List Char := List.replicate 2501 '\n'

/-- Three-byte closing delimiter used in the C5 counterexample. -/
def c5_end : List Char := "xyz".toList

/-- One-byte truncation message used in the C5 counterexample. -/
def c5_msg : List Char := ['!']

/-- Counterexample to C5 as stated: the byte limit triggers
(`2501 + 3 > 2000`), but the result of `trim_text` is NOT the byte-cut
prefix followed by delimiter and message, because the byte-cut prefix still
has 1996 lines and the line-limit step rewrites it afterwards. -/
theorem trim_text_char_cut_not_final :
    2000 < utf8Len c5_body + utf8Len c5_end ∧
    (trim_text c5_body c5_end c5_msg).1 ≠
      byteTake c5_body (cut_off_point c5_body
        (2000 - utf8Len c5_end - utf8Len c5_msg)) ++ c5_end ++ c5_msg := by
  have hlf : ('\n').utf8Size = 1 := by decide
  have hascii := ascii_replicate 2501 '\n' hlf
  have hb : utf8Len c5_body = 2501 := by
    rw [c5_body, utf8Len_replicate, hlf]
  have he : utf8Len c5_end = 3 := by decide
  have hm : utf8Len c5_msg = 1 := by decide
  have havail : 2000 - utf8Len c5_end - utf8Len c5_msg = 1996 := by
    rw [he, hm]
  have hgt : 2000 < utf8Len c5_body + utf8Len c5_end := by omega
  refine ⟨hgt, ?_⟩
  have hcut : cut_off_point c5_body 1996 = 1996 := by
    apply cut_off_point_eq_of_isBoundary
    rw [c5_body, isCharBoundary_of_ascii _ hascii, List.length_replicate]
    decide
  have htake : byteTake c5_body 1996 = List.replicate 1996 '\n' := by
    rw [c5_body, byteTake_of_ascii _ hascii, List.take_replicate,
      (by decide : (1996 : Nat) ⊓ 2501 = 1996)]
  have hs1 : charLimitStep c5_body c5_end c5_msg =
      (List.replicate 1996 '\n', some c5_msg, 1) := by
    unfold charLimitStep
    rw [if_pos (by omega)]
    show (byteTake c5_body (cut_off_point c5_body
        (2000 - utf8Len c5_end - utf8Len c5_msg)), some c5_msg, 1) = _
    rw [havail, hcut, htake]
  have hlines : rustLines (List.replicate 1996 '\n')
      = List.replicate 1996 ([] : List Char) := rustLines_replicate_LF 1996
  have hs2 : lineLimitStep (List.replicate 1996 '\n') (some c5_msg) c5_msg 1 =
      (List.replicate 44 '\n', some c5_msg, 1) := by
    unfold lineLimitStep
    rw [if_pos (by rw [hlines, List.length_replicate]; decide)]
    show (joinLF ((rustLines (List.replicate 1996 '\n')).take MAX_OUTPUT_LINES),
      some c5_msg, 1) = _
    rw [hlines, List.take_replicate,
      (by decide : MAX_OUTPUT_LINES ⊓ 1996 = 44 + 1), joinLF_replicate_nil]
  have hres : (trim_text c5_body c5_end c5_msg).1 =
      List.replicate 44 '\n' ++ c5_end ++ c5_msg := by
    rw [trim_text_eq, hs1]
    simp only [hs2]
  rw [hres, havail, hcut, htake]
  intro heq
  have hlen := congrArg List.length heq
  simp only [List.length_append, List.length_replicate] at hlen
  omega

/-- The 46-line body of the C1 failing input: 46 lines of 42 `a`s. -/
def c1_line : List Char := List.replicate 42 'a'

/-- The C1 failing input body: 1977 bytes, 46 lines, fits the byte limit. -/
def c1_body : List Char := joinLF (List.replicate 46 c1_line)

/-- The 100-byte truncation message of the C1 failing input. -/
def c1_msg : List Char := List.replicate 100 'n'

/-- Sum of a replicated natural number. -/
theorem sum_replicate_nat (n a : Nat) : (List.replicate n a).sum = n * a := by
  induction n with
  | zero => simp
  | succ m ih => rw [List.replicate_succ]; simp [ih]; ring

/-- C1 fails on the code: for the 46-line, 1977-byte body `c1_body` with an
empty delimiter and a 100-byte notice, only the 45-line limit triggers, yet
`trim_text` returns a 2034-byte string, exceeding the 2000-byte platform
limit, because the line-limit branch appends the notice without re-checking
the byte limit. -/
theorem trim_text_exceeds_char_limit :
    utf8Len c1_body + utf8Len ([] : List Char) ≤ 2000 ∧
    MAX_OUTPUT_LINES < (rustLines c1_body).length ∧
    2000 < utf8Len (trim_text c1_body [] c1_msg).1 := by
  have ha : ('a').utf8Size = 1 := by decide
  have h0 : utf8Len ([] : List Char) = 0 := rfl
  have hline_len : utf8Len c1_line = 42 := by
    rw [c1_line, utf8Len_replicate, ha]
  have hjoin : ∀ k, utf8Len (joinLF (List.replicate (k + 1) c1_line))
      = (k + 1) * 42 + k := by
    intro k
    rw [List.replicate_succ, utf8Len_joinLF_cons, List.map_replicate,
      hline_len, sum_replicate_nat, List.length_replicate]
    ring
  have h45j := hjoin 45
  norm_num at h45j
  have hb : utf8Len c1_body = 1977 := by
    rw [c1_body]
    omega
  have hlines : rustLines c1_body = List.replicate 46 c1_line := by
    rw [c1_body]
    apply rustLines_joinLF
    · decide
    · intro l hl
      rw [List.mem_replicate] at hl
      rw [hl.2]
      decide
    · intro l hl
      rw [List.mem_replicate] at hl
      rw [hl.2]
      decide
    · decide
  refine ⟨by omega, by rw [hlines, List.length_replicate]; decide, ?_⟩
  have hs1 : charLimitStep c1_body [] c1_msg = (c1_body, none, 0) := by
    unfold charLimitStep
    rw [if_neg (show ¬ (utf8Len c1_body + utf8Len ([] : List Char) > 2000) by
      rw [hb, h0]; omega)]
  have hs2 : lineLimitStep c1_body none c1_msg 0 =
      (joinLF (List.replicate 45 c1_line), some c1_msg, 1) := by
    unfold lineLimitStep
    rw [if_pos (by rw [hlines, List.length_replicate]; decide)]
    show (joinLF ((rustLines c1_body).take MAX_OUTPUT_LINES), some c1_msg, 0 + 1) = _
    rw [hlines, List.take_replicate,
      (by decide : MAX_OUTPUT_LINES ⊓ 46 = 45)]
  have hres : (trim_text c1_body [] c1_msg).1 =
      joinLF (List.replicate 45 c1_line) ++ [] ++ c1_msg := by
    rw [trim_text_eq, hs1]
    simp only [hs2]
  have h44 := hjoin 44
  norm_num at h44
  have hmsg : utf8Len c1_msg = 100 := by
    have hn : ('n').utf8Size = 1 := by decide
    rw [c1_msg, utf8Len_replicate, hn]
  rw [hres, utf8Len_append, utf8Len_append, h0, hmsg, h44]
  omega

/-- Outcome of one fallible platform call, as seen by the embedded control
flow (`Ok(_)` or `Err(e)` with a textual error). -/
abbrev Outcome := Except String Unit

/-- Platform effects performed by the acknowledgment controller. -/
inductive Effect where
  | logWarn (msg : String)
  | react (emoji : String)
  | say (content : String)
  | sleepSecs (n : Nat)
  | fetchReply
  | deleteReply
  deriving DecidableEq

/-- Platform call outcomes visible to `acknowledge_success` in a legacy
(text-prefixed) invocation: the result of `ctx.msg.react(...)`. -/
structure LegacySuccessCalls where
  react_outcome : Outcome

/-- Platform call outcomes visible to `acknowledge_success` in a native
(slash) invocation: `ctx.say(...)`, `reply.message()`, `msg.delete(...)`. -/
structure NativeSuccessCalls where
  say_outcome : Outcome
  fetch_outcome : Outcome
  delete_outcome : Outcome

/-- The two-variant invocation context of `acknowledge_success`
(`poise::Context::Prefix` is `legacy`, `poise::Context::Application` is
`application`). -/
inductive SuccessCtx where
  | legacy (calls : LegacySuccessCalls)
  | application (calls : NativeSuccessCalls)

/-- `acknowledge_success` from `src/main.rs` (lines 162-190).  The `emoji`
argument is the result of `find_custom_emoji` (the guild cache lookup);
the function returns the effects it performed and its `Result`.  In the
legacy arm the source uses `?` on the react call (propagate); in the
application arm a failed `say` is swallowed by `if let Ok(reply)`, the
`reply.message()` fetch uses `?` (propagate), and the delete outcome is
discarded (`let _ = msg.delete(...)`). -/
def acknowledge_success (emoji : Option String) (fallback : Char) :
    SuccessCtx → List Effect × Outcome
  | .legacy calls =>
    let reaction := match emoji with
      | some e => e
      | none => fallback.toString
    ([.react reaction],
      match calls.react_outcome with
      | .ok _ => .ok ()
      | .error e => .error e)
  | .application calls =>
    let msg_content := match emoji with
      | some e => e
      | none => fallback.toString
    match calls.say_outcome with
    | .ok _ =>
      match calls.fetch_outcome with
      | .ok _ => ([.say msg_content, .sleepSecs 3, .fetchReply, .deleteReply], .ok ())
      | .error e => ([.say msg_content, .sleepSecs 3, .fetchReply], .error e)
    | .error _ => ([.say msg_content], .ok ())

/-- Platform call outcomes available to the failure path in a legacy
invocation: the red-cross reaction of `acknowledge_fail` and the `ctx.say`
used by `on_error`. -/
structure LegacyFailCalls where
  react_outcome : Outcome
  say_outcome : Outcome

/-- Platform call outcomes available to the failure path in a native
invocation: the `ctx.say` reply. -/
structure NativeFailCalls where
  say_outcome : Outcome

/-- Invocation context carried by a framework error. -/
inductive FailCtx where
  | legacy (calls : LegacyFailCalls)
  | application (calls : NativeFailCalls)

/-- The `ctx.say` outcome, available in both modes. -/
def FailCtx.say_outcome : FailCtx → Outcome
  | .legacy calls => calls.say_outcome
  | .application calls => calls.say_outcome

/-- The error classes distinguished by `acknowledge_fail` and `on_error`
(`poise::FrameworkError`): a command-execution failure carrying the
invocation context, an argument-parse failure (with its
`is::<CodeBlockError>` test and the command help text), or any other
class. -/
inductive FrameworkError where
  | command (error : String) (ctx : FailCtx)
  | argumentParse (error : String) (isCodeBlockError : Bool)
      (help_text : Option String) (ctx : FailCtx)
  | other

/-- The fixed missing-code-block response of `on_error`. -/
def codeBlockMsg : String :=
  "Missing code block. Please use the following markdown:\n\\`code here\\`\nor\n\\`\\`\\`rust\ncode here\n\\`\\`\\`"

/-- `on_error` from `src/main.rs` (lines 59-85): log, then for argument-parse
errors say the code-block help, the command help text, or the error text
(logging a failed send and continuing); for command errors say the error
text (same); all other classes only log.  It never returns an error. -/
def on_error : FrameworkError → List Effect × Outcome
  | .argumentParse error isCodeBlockError help_text ctx =>
    let response :=
      if isCodeBlockError then codeBlockMsg
      else match help_text with
        | some multiline_help => "**" ++ error ++ "**\n" ++ multiline_help
        | none => error
    ([.logWarn "Encountered error", .say response] ++
      (match ctx.say_outcome with
       | .error e => [.logWarn e]
       | .ok _ => []), .ok ())
  | .command error ctx =>
    ([.logWarn "Encountered error", .say error] ++
      (match ctx.say_outcome with
       | .error e => [.logWarn e]
       | .ok _ => []), .ok ())
  | .other => ([.logWarn "Encountered error"], .ok ())

/-- `acknowledge_fail` from `src/main.rs` (lines 31-57): on a command error,
log, then in legacy mode react with a red cross, logging a failed reaction
and continuing; in native mode say a cross-marked explanation, logging a
failed send and continuing.  Any other error class is routed to
`on_error`. -/
def acknowledge_fail : FrameworkError → List Effect × Outcome
  | .command error ctx =>
    let l0 : List Effect :=
      [.logWarn ("Reacting with red cross because of error: " ++ error)]
    match ctx with
    | .legacy calls =>
      (l0 ++ [.react "❌"] ++
        (match calls.react_outcome with
         | .error e => [.logWarn ("Failed to react with red cross: " ++ e)]
         | .ok _ => []), .ok ())
    | .application calls =>
      (l0 ++ [.say ("❌ " ++ error)] ++
        (match calls.say_outcome with
         | .error e =>
           [.logWarn ("Failed to send failure acknowledgment slash command response: "
             ++ e)]
         | .ok _ => []), .ok ())
  | .argumentParse error isCodeBlockError help_text ctx =>
    on_error (.argumentParse error isCodeBlockError help_text ctx)
  | .other => on_error .other

/-- Counterexample to C7: `acknowledge_success` does not swallow every
platform failure.  A failed reaction-add in legacy mode and a failed fetch
of the sent reply in native mode are both propagated as errors. -/
theorem acknowledge_success_propagates :
    (acknowledge_success none 'x'
      (.legacy ⟨.error "reaction failed"⟩)).2 ≠ .ok () ∧
    (acknowledge_success none 'x'
      (.application ⟨.ok (), .error "fetch failed", .ok ()⟩)).2 ≠ .ok () := by
  exact ⟨fun h => Except.noConfusion h, fun h => Except.noConfusion h⟩

/-- C7 (amended): `acknowledge_success` swallows a failed send and a failed
deletion in native mode, but a failed reaction-add in legacy mode and a
failed fetch of the sent reply in native mode are propagated upward; when
the guarded calls succeed the function completes without error. -/
theorem acknowledge_success_error_semantics (emoji : Option String) (fallback : Char) :
    (∀ e fo del, (acknowledge_success emoji fallback
        (.application ⟨.error e, fo, del⟩)).2 = .ok ()) ∧
    (∀ del, (acknowledge_success emoji fallback
        (.application ⟨.ok (), .ok (), del⟩)).2 = .ok ()) ∧
    (∀ e, (acknowledge_success emoji fallback (.legacy ⟨.error e⟩)).2 = .error e) ∧
    (∀ e del, (acknowledge_success emoji fallback
        (.application ⟨.ok (), .error e, del⟩)).2 = .error e) ∧
    (acknowledge_success emoji fallback (.legacy ⟨.ok ()⟩)).2 = .ok () :=
  ⟨fun _ _ _ => rfl, fun _ => rfl, fun _ => rfl, fun _ _ => rfl, rfl⟩

/-- C8: on a command-execution error in legacy mode, `acknowledge_fail`
attaches the red-cross reaction and completes without error for every
reaction outcome; when the reaction fails it logs the failure and continues;
every other error class is routed unchanged to the generic reporter
`on_error`. -/
theorem acknowledge_fail_spec :
    (∀ err calls,
      Effect.react "❌" ∈ (acknowledge_fail (.command err (.legacy calls))).1 ∧
      (acknowledge_fail (.command err (.legacy calls))).2 = .ok ()) ∧
    (∀ err re so,
      (acknowledge_fail (.command err (.legacy ⟨.error re, so⟩))).1 =
        [.logWarn ("Reacting with red cross because of error: " ++ err),
         .react "❌",
         .logWarn ("Failed to react with red cross: " ++ re)]) ∧
    (∀ err isCB help ctx,
      acknowledge_fail (.argumentParse err isCB help ctx) =
        on_error (.argumentParse err isCB help ctx)) ∧
    acknowledge_fail .other = on_error .other := by
  refine ⟨?_, fun err re so => rfl, fun err isCB help ctx => rfl, rfl⟩
  intro err calls
  rcases calls with ⟨ro, so⟩
  rcases ro with u | e <;> exact ⟨by simp [acknowledge_fail], rfl⟩

end Ferrisbot
